import Mathlib

/-!
Verification of the tag dependency and ordering engine of
`src/tagging/tag_dependency_manager.py` (class `TagDependencyManager`).

Embedding conventions:

* A Python dict is modelled as an association list in key-insertion order.
* The stored `self.tag_dependencies : Dict[str, Set[str]]` maps a tag to a
  `Set[str]`; each set is modelled by the list of its elements in first-insertion
  order.  Every algorithm below that consumes a dependency set is insensitive to
  the order of that list wherever the corresponding Python code iterates a set
  whose iteration order is implementation-defined (the ordering loop only takes
  a maximum over the set, and the claims proved about the depth-first search do
  not depend on neighbour order).
* `None` arguments are modelled with `Option`; the `while` loops and the
  recursive depth-first search, which have no structural termination argument in
  Python, take explicit fuel, and termination claims exhibit a fuel bound past
  which the result is stable and the Python exit condition holds.
* Machine integers do not occur (all Python ints here are list indices).
-/

/-! ## Data model: the stored dependency map -/

/-- The engine's stored dependency map `self.tag_dependencies`. -/
abbrev DepMap := List (String × List String)

/-- `self.tag_dependencies.get(tag_name, set())` — dict lookup with default. -/
def lookupDeps (m : DepMap) (t : String) : List String :=
  match m.find? (fun p => p.1 == t) with
  | some p => p.2
  | none => []

/-! ## `get_ordered_tags` (lines 54-93) -/

/-- Lines 71-77: for each dependency, the inner
`for j, check_tag in enumerate(ordered_tags): if check_tag == dep: ...; break`
finds the index of the dependency's first occurrence in the working list, and
`latest_dep_index` accumulates the maximum.  Python's `-1` sentinel (no
dependency found in the list) is rendered as `none`. -/
def ldiStep (l : List String) (acc : Option Nat) (d : String) : Option Nat :=
  match acc, l.findIdx? (fun c => c == d) with
  | none, some j => some j
  | some a, some j => some (max a j)
  | a, none => a

def latestDepIndex (l : List String) (deps : List String) : Option Nat :=
  deps.foldl (ldiStep l) none

/-- The test on line 80 (`if latest_dep_index > i`): the tag at position `i`
must move iff the latest dependency position is strictly greater than `i`;
returns that position when it is. -/
def violationAt (m : DepMap) (l : List String) (i : Nat) (t : String) : Option Nat :=
  match latestDepIndex l (lookupDeps m t) with
  | some v => if i < v then some v else none
  | none => none

/-- The `for i, tag_name in enumerate(ordered_tags)` scan (lines 67-87): find
the first position whose tag violates its dependencies (the loop `break`s right
after the first move, so at most one move per pass is observable), together
with that tag and the latest dependency position.  `none` models a full pass
in which no tag moved. -/
def firstViolationAux (m : DepMap) (l : List String) :
    Nat → List String → Option (Nat × String × Nat)
  | _, [] => none
  | i, t :: rest =>
    match violationAt m l i t with
    | some v => some (i, t, v)
    | none => firstViolationAux m l (i + 1) rest

def firstViolation (m : DepMap) (l : List String) : Option (Nat × String × Nat) :=
  firstViolationAux m l 0 l

/-- One iteration of the `while True` body: `none` when the pass makes no move,
otherwise the list after `ordered_tags.pop(i)` and
`ordered_tags.insert(latest_dep_index + 1, tag_name)` (lines 80-87).  Since the
move only happens when `latest_dep_index > i`, the `if latest_dep_index >= i`
decrement always fires, so the insertion lands at the index the latest
dependency held in the original list — immediately after that dependency. -/
def moveStep (m : DepMap) (l : List String) : Option (List String) :=
  match firstViolation m l with
  | none => none
  | some (i, t, v) => some (List.insertIdx v t (l.eraseIdx i))

/-- The `while True` loop of lines 63-91 with explicit fuel.  The Python loop
exits when a full pass leaves the list equal to `previous_order`; a pass with a
move always changes the list (`moveStep_changes` below), so the exit condition
is exactly `moveStep m l = none`. -/
def orderLoop (m : DepMap) : Nat → List String → List String
  | 0, l => l
  | fuel + 1, l =>
    match moveStep m l with
    | none => l
    | some l2 => orderLoop m fuel l2

/-- `get_ordered_tags` (lines 54-93).  The claims below exhibit a fuel after
which the loop has reached its exit condition, which is termination of the
Python loop. -/
def get_ordered_tags (m : DepMap) (fuel : Nat) (tag_order : List String) : List String :=
  if tag_order = [] then [] else orderLoop m fuel tag_order

/-! ## `_extract_variables_from_condition` (lines 95-119) -/

/-- The character class `[a-zA-Z0-9_]` of the identifier pattern on line 107
(`Char.isAlpha` and `Char.isDigit` test exactly the ASCII ranges). -/
def isWordChar (c : Char) : Bool := c.isAlpha || c.isDigit || c == '_'

/-- The single-quote character, written by code point to keep the source tidy. -/
def singleQuote : Char := Char.ofNat 39

/-- `re.sub(r'"[^"]*"', '', s)` for a delimiter `q` (lines 102-103): scanning
left to right, an occurrence of `q` that is followed by a closing `q` is
deleted together with everything between the pair, and scanning resumes after
the closing delimiter; a delimiter with no later closing delimiter cannot match
the pattern and is kept.  (For inputs made of ASCII characters this is exactly
the `re` behaviour; the embedding uses the same ASCII character reading
throughout.) -/
def stripDelimGo (q : Char) : Nat → List Char → List Char
  | _, [] => []
  | 0, l => l
  | fuel + 1, c :: cs =>
    if c == q then
      if cs.contains q then stripDelimGo q fuel ((cs.dropWhile (fun x => x != q)).drop 1)
      else c :: cs
    else c :: stripDelimGo q fuel cs

/-- The scan consumes at least one character per step, so fuel equal to the
length of the input always suffices (`stripDelimGo_fuel`). -/
def stripDelim (q : Char) (s : List Char) : List Char := stripDelimGo q s.length s

/-- `re.findall(r'\b[a-zA-Z_][a-zA-Z0-9_]*\b', s)` (lines 107-108), as a
scanner: the matches of that pattern are exactly the maximal runs of
`[a-zA-Z0-9_]` characters whose first character is a letter or underscore (a
run starting with a digit fails the leading `\b`-anchored `[a-zA-Z_]` at every
position inside it and produces no match).  `wordRuns` collects the maximal
runs; `findIdents` keeps the matching ones. -/
def wordRunsGo : Nat → List Char → List (List Char)
  | _, [] => []
  | 0, _ => []
  | fuel + 1, c :: cs =>
    if isWordChar c then
      (c :: cs.takeWhile isWordChar) :: wordRunsGo fuel (cs.dropWhile isWordChar)
    else wordRunsGo fuel cs

/-- The scan consumes at least one character per step, so fuel equal to the
length of the input always suffices (`wordRunsGo_fuel`). -/
def wordRuns (s : List Char) : List (List Char) := wordRunsGo s.length s

/-- Keep the runs that begin with `[a-zA-Z_]`, as strings. -/
def findIdents (s : List Char) : List String :=
  ((wordRuns s).filter (fun r =>
    match r.head? with
    | some c => c.isAlpha || c == '_'
    | none => false)).map (fun r => String.mk r)

/-- `match.lower()`: ASCII lower-casing, written over the character list so
that it evaluates by kernel reduction (for the ASCII tokens at hand this is
exactly Python's `str.lower`). -/
def strLower (s : String) : String := String.mk (s.data.map Char.toLower)

/-- The stopword set of line 111 (a Python set; only membership is used). -/
def operatorWords : List String :=
  ["and", "or", "not", "true", "false", "null", "undefined"]

/-- The filtering loop of lines 112-117: keep a token when its lower-casing is
not a stopword and it was not kept before; `variables`/`seen` are modelled by
the accumulator (`seen == set(variables)` throughout the Python loop, so the
membership test uses the accumulator). -/
def keepVariables (ms : List String) : List String :=
  ms.foldl
    (fun acc x => if (strLower x) ∉ operatorWords ∧ x ∉ acc then acc ++ [x] else acc) []

/-- `_extract_variables_from_condition` (lines 95-119).  The Python parameter
may be `None` (the tests call it so), hence `Option String`; `if not condition`
is true exactly for `None` and the empty string. -/
def _extract_variables_from_condition (condition : Option String) : List String :=
  match condition with
  | none => []
  | some s =>
    if s.data = [] then []
    else
      keepVariables (findIdents (stripDelim singleQuote (stripDelim '"' s.data)))

/-! ## Schema model and `analyze_dependencies` (lines 18-52) -/

/-- One entry of a tag's `values` list.  `analyze_dependencies` only inspects
`isinstance(value_item, dict) and 'req' in value_item`, so an entry is either a
bare literal (`lit`) or a dict whose optional `req` condition is kept (`obj`);
all other dict fields are irrelevant to the engine. -/
inductive ValueItem where
  | lit (v : String)
  | obj (req : Option String)

/-- A tag definition: the `req` and `values` fields read by the engine (other
fields — `desc`, `type`, `default` — are never touched by this class). -/
structure TagInfo where
  req : Option String := none
  values : Option (List ValueItem) := none

/-- The parsed schema passed to `analyze_dependencies`: an optional `tags`
mapping (a dict, modelled in key-insertion order). -/
structure TagConfig where
  tags : Option (List (String × TagInfo)) := none

/-- Lines 27-47: the `dependencies` list for one tag — variables of the
tag-level `req` followed by the variables of each condition-bearing value
entry, de-duplicated by the `seen` set while preserving first appearance
(`seen == set(dependencies)` throughout, so membership in the accumulator
models `seen`). -/
def tagInfoDeps (info : TagInfo) : List String :=
  let tagLevel := _extract_variables_from_condition info.req
  let valueLevel :=
    match info.values with
    | none => []
    | some items =>
      (items.map (fun it =>
        match it with
        | .lit _ => []
        | .obj r => _extract_variables_from_condition r)).flatten
  (tagLevel ++ valueLevel).foldl (fun acc d => if d ∉ acc then acc ++ [d] else acc) []

/-- `analyze_dependencies` (lines 18-52): the stored map
`self.tag_dependencies = {tag: set(dependencies)}`, with each stored set
modelled by the `dependencies` list that built it (its elements in first
appearance order).  NOTE the mismatch exposed by claim C2: the Python method
*returns* `{tag: list(deps) for tag, deps in self.tag_dependencies.items()}`,
where `deps` is a `set`, so the order of each returned list is CPython
hash-iteration order, not the first-appearance order that the comment on line
51 promises; only the set of elements (and the key order) of the return value
is specified.  This definition records the deterministic content: keys in
schema order, each mapped to the deduplicated first-appearance list whose
*set* is what the method stores and returns. -/
def analyze_dependencies (cfg : TagConfig) : DepMap :=
  match cfg.tags with
  | none => []
  | some tags => tags.map (fun p => (p.1, tagInfoDeps p.2))

/-! ## `detect_circular_dependencies` (lines 121-154) -/

/-- The recursive `dfs(tag_name, path)` (lines 127-147), with explicit fuel.
State threaded through the traversal: the global `visited` set (modelled as the
list of its elements in insertion order; only membership and insertion are
used) and the accumulated `cycles` list.  The Python `rec_stack` set equals
`set(path)` at every call — a tag is added to both together (lines 140-141)
and removed from `rec_stack` exactly when the frame that added it returns, and
each child receives `path.copy()` — so the `tag_name in rec_stack` test is
rendered as `t ∈ path`.  `path.index(t)` on line 131 is the first occurrence,
hence `dropWhile`.  Each child call receives the same extended path and the
sequentially-updated state, exactly as the nonlocal `visited`/`cycles` and the
per-child `path.copy()` behave. -/
def dfs (m : DepMap) : Nat → String → List String →
    List String × List (List String) → List String × List (List String)
  | 0, _, _, st => st
  | fuel + 1, t, path, st =>
    if t ∈ path then
      (st.1, st.2 ++ [path.dropWhile (fun x => x != t) ++ [t]])
    else if t ∈ st.1 then st
    else
      (lookupDeps m t).foldl (fun s d => dfs m fuel d (path ++ [t]) s) (st.1 ++ [t], st.2)

/-- `detect_circular_dependencies` (lines 121-154): run `dfs` from every not
yet visited key of the stored map, in key order, starting from empty
`visited`/`cycles`; return the accumulated cycles. -/
def detect_circular_dependencies (m : DepMap) (fuel : Nat) : List (List String) :=
  ((m.map Prod.fst).foldl
    (fun st t => if t ∈ st.1 then st else dfs m fuel t [] st) ([], [])).2

/-- Every tag name the traversal can ever reach: the keys of the map and every
name in a stored dependency set. -/
def depUniv (m : DepMap) : List String :=
  m.map Prod.fst ++ (m.map Prod.snd).flatten

/-- Fuel past which `dfs`-recursion depth can no longer matter: nesting only
deepens while fresh names join `path`, which is bounded by the number of
distinct reachable names. -/
def detectBound (m : DepMap) : Nat := (depUniv m).dedup.length + 2

/-- The number of reachable names not yet on the recursion path: the fuel
needed below a call never exceeds this plus two. -/
def remainingNames (m : DepMap) (path : List String) : Nat :=
  ((depUniv m).dedup.filter (fun x => !(path.contains x))).length

/-! ## The manager object (claim C10) -/

/-- The two instance fields of `TagDependencyManager`. -/
structure Manager where
  tag_dependencies : DepMap := []
  tag_config : TagConfig := {}

/-- Method `analyze_dependencies` as a state transformer: lines 20-21 and 49
assign both fields; the return value is the materialized map. -/
def Manager.analyze (_mgr : Manager) (cfg : TagConfig) : Manager × DepMap :=
  (⟨analyze_dependencies cfg, cfg⟩, analyze_dependencies cfg)

/-- Method `get_ordered_tags` as a state transformer: the body reads
`self.tag_dependencies` (line 69) and never assigns any `self` field, and it
operates on `tag_order.copy()` (line 60), so the resulting state is the
incoming state re-packed unchanged. -/
def Manager.getOrderedTags (mgr : Manager) (fuel : Nat) (tag_order : List String) :
    Manager × List String :=
  (⟨mgr.tag_dependencies, mgr.tag_config⟩,
    get_ordered_tags mgr.tag_dependencies fuel tag_order)

/-- Method `detect_circular_dependencies` as a state transformer: the body
reads `self.tag_dependencies` (lines 144, 150) and never assigns any `self`
field. -/
def Manager.detectCircular (mgr : Manager) (fuel : Nat) :
    Manager × List (List String) :=
  (⟨mgr.tag_dependencies, mgr.tag_config⟩,
    detect_circular_dependencies mgr.tag_dependencies fuel)

/-! ## Specification-side definitions

These state claims in the spec's own vocabulary and are compared with the
embedded code. -/

/-- One step of a right fold that groups a character list into maximal runs of
word characters: a word character extends the run in progress, any other
character closes it. -/
def specRunsStep (c : Char) (st : List Char × List (List Char)) :
    List Char × List (List Char) :=
  if isWordChar c then (c :: st.1, st.2)
  else ([], if st.1 = [] then st.2 else st.1 :: st.2)

def specRunsAux (s : List Char) : List Char × List (List Char) :=
  s.foldr specRunsStep ([], [])

/-- The maximal runs of `[a-zA-Z0-9_]` characters of `s`, stated by a right
fold (independently of the scanner `wordRuns`). -/
def spec_word_runs (s : List Char) : List (List Char) :=
  if (specRunsAux s).1 = [] then (specRunsAux s).2
  else (specRunsAux s).1 :: (specRunsAux s).2

/-- Claim C3's "identifier-shaped tokens": the maximal word-character runs
whose first character is a letter or an underscore. -/
def spec_identifier_tokens (s : List Char) : List String :=
  ((spec_word_runs s).filter (fun r =>
    match r.head? with
    | some c => c.isAlpha || c == '_'
    | none => false)).map (fun r => String.mk r)

/-- De-duplication keeping first occurrences, stated as: keep the head and
delete its later duplicates. -/
def spec_dedup : List String → List String
  | [] => []
  | x :: xs => x :: spec_dedup (xs.filter (fun y => y != x))
termination_by l => l.length
decreasing_by
  have := (List.filter_sublist (p := fun y => y != x) (l := xs)).length_le
  simp only [List.length_cons]
  omega

/-- Claim C3 as a function: delete double-quoted then single-quoted
substrings, take the identifier-shaped tokens, drop the tokens whose
lower-casing is a stopword, de-duplicate keeping first occurrences; `None`
and the empty condition give the empty list. -/
def spec_extract (condition : Option String) : List String :=
  match condition with
  | none => []
  | some s =>
    spec_dedup
      ((spec_identifier_tokens (stripDelim singleQuote (stripDelim '"' s.data))).filter
        (fun x => !(operatorWords.contains (strLower x))))

/-- Claims C1/C6: the list satisfies every dependency — each dependency of the
tag at position `i` that occurs in the list at all has its (first) index at
most `i`. -/
def DepsSatisfied (m : DepMap) (l : List String) : Prop :=
  ∀ (i : Nat) (hi : i < l.length) (d : String),
    d ∈ lookupDeps m (l.get ⟨i, hi⟩) →
      ∀ j, l.findIdx? (fun c => c == d) = some j → j ≤ i

/-- The dependency relation induced on the names appearing in `l` by the
stored map: `d` must precede `t` when both appear in `l` and `d` is in `t`'s
stored dependency set. -/
def DepEdge (m : DepMap) (l : List String) (d t : String) : Prop :=
  d ∈ l ∧ t ∈ l ∧ d ∈ lookupDeps m t

/-- `DepEdge` without self-edges (self-reference is legal data for claim C9). -/
def DepEdgeNS (m : DepMap) (l : List String) (d t : String) : Prop :=
  DepEdge m l d t ∧ d ≠ t

/-- A relation is acyclic when no element reaches itself by a nonempty chain. -/
def AcyclicRel (r : String → String → Prop) : Prop :=
  ∀ t, ¬ Relation.TransGen r t t

/-! ## Termination measure for the repair loop

`phi rB W l` counts the "bad" ordered pairs of positions of `l` — pairs whose
right element should precede the left one according to `rB` — weighting each
pair by `W` of its left element.  With `rB` a transitive closure of the
dependency relation and `W` exponential in a descendant-count rank, one
`moveStep` strictly decreases `phi`. -/

def crossCount (rB : String → String → Bool) (W : String → Nat)
    (xs ys : List String) : Nat :=
  (xs.map (fun x => ys.countP (fun y => rB y x) * W x)).sum

def crossOne (rB : String → String → Bool) (W : String → Nat)
    (xs : List String) (y : String) : Nat :=
  (xs.map (fun x => (if rB y x then 1 else 0) * W x)).sum

def phi (rB : String → String → Bool) (W : String → Nat) : List String → Nat
  | [] => 0
  | x :: xs => xs.countP (fun y => rB y x) * W x + phi rB W xs

/-! ## Concrete inputs from the spec's examples -/

/-- Claim C4's dependency map (also produced by `analyze_dependencies` on the
`events_tags.yaml` test schema). -/
def c4DepMap : DepMap :=
  [("dance_style", ["action", "girls", "guys", "scene"]),
   ("girls", ["participants"]),
   ("guys", ["participants", "girls"])]

/-- Claim C4's input order. -/
def c4Input : List String :=
  ["dance_style", "participants", "girls", "guys", "action", "scene"]

/-- Claim C7's circular schema `{tag1: req "tag2", tag2: req "tag3", tag3: req "tag1"}`. -/
def c7Config : TagConfig :=
  ⟨some [("tag1", {req := some "tag2"}),
         ("tag2", {req := some "tag3"}),
         ("tag3", {req := some "tag1"})]⟩

/-- Claim C2's failing input: the test schema whose `guys` tag reads two
variables, plus a condition-free tag. -/
def c2Config : TagConfig :=
  ⟨some [("participants", {values := some [.lit "0", .lit "1"]}),
         ("girls", {req := some "participants >= 1"}),
         ("guys", {req := some "participants - girls > 0"})]⟩

/-! ## The scanner tokenizer matches the fold-specified tokenizer -/

theorem specRunsAux_all_word (A : List Char) (st : List Char × List (List Char))
    (h : ∀ c ∈ A, isWordChar c = true) :
    A.foldr specRunsStep st = (A ++ st.1, st.2) := by
  induction A with
  | nil => rfl
  | cons a A ih =>
    have ha : isWordChar a = true := h a (by simp)
    have hA := ih (fun c hc => h c (by simp [hc]))
    simp only [List.foldr_cons, hA, specRunsStep, ha, if_pos]
    simp

theorem specRunsAux_of_nonword_head (s : List Char)
    (h : s = [] ∨ ∃ d rest, s = d :: rest ∧ isWordChar d = false) :
    specRunsAux s = ([], spec_word_runs s) := by
  rcases h with rfl | ⟨d, rest, rfl, hd⟩
  · rfl
  · have : specRunsAux (d :: rest) = specRunsStep d (specRunsAux rest) := rfl
    rw [this]
    simp only [specRunsStep, hd]
    simp only [Bool.false_eq_true, if_false, spec_word_runs, this, specRunsStep, hd]
    simp

theorem wordRunsGo_fuel : ∀ (f1 f2 : Nat) (s : List Char),
    s.length ≤ f1 → s.length ≤ f2 → wordRunsGo f1 s = wordRunsGo f2 s := by
  intro f1
  induction f1 with
  | zero =>
    intro f2 s h1 _
    have : s = [] := List.length_eq_zero.1 (by omega)
    subst this
    cases f2 <;> rfl
  | succ f ih =>
    intro f2 s h1 h2
    cases s with
    | nil => cases f2 <;> rfl
    | cons c cs =>
      obtain ⟨g, rfl⟩ : ∃ g, f2 = g + 1 := ⟨f2 - 1, by simp at h2; omega⟩
      show (if isWordChar c then (c :: cs.takeWhile isWordChar)
              :: wordRunsGo f (cs.dropWhile isWordChar)
            else wordRunsGo f cs)
          = (if isWordChar c then (c :: cs.takeWhile isWordChar)
              :: wordRunsGo g (cs.dropWhile isWordChar)
            else wordRunsGo g cs)
      have hlen : cs.length ≤ f := by simp at h1; omega
      have hlen2 : cs.length ≤ g := by simp at h2; omega
      have hdlen : (cs.dropWhile isWordChar).length ≤ cs.length :=
        (List.dropWhile_sublist _).length_le
      by_cases hc : isWordChar c
      · rw [if_pos hc, if_pos hc, ih g _ (by omega) (by omega)]
      · rw [if_neg hc, if_neg hc, ih g cs hlen hlen2]

theorem wordRuns_nil : wordRuns [] = [] := rfl

theorem wordRuns_cons (c : Char) (cs : List Char) :
    wordRuns (c :: cs)
      = (if isWordChar c then
          (c :: cs.takeWhile isWordChar) :: wordRuns (cs.dropWhile isWordChar)
         else wordRuns cs) := by
  show (if isWordChar c then (c :: cs.takeWhile isWordChar)
          :: wordRunsGo cs.length (cs.dropWhile isWordChar)
        else wordRunsGo cs.length cs) = _
  have hdlen : (cs.dropWhile isWordChar).length ≤ cs.length :=
    (List.dropWhile_sublist _).length_le
  by_cases hc : isWordChar c
  · rw [if_pos hc, if_pos hc,
      wordRunsGo_fuel cs.length (cs.dropWhile isWordChar).length _ hdlen (le_refl _)]
    rfl
  · rw [if_neg hc, if_neg hc]
    rfl

theorem wordRuns_eq_spec (s : List Char) : wordRuns s = spec_word_runs s := by
  suffices h : ∀ (n : Nat) (s : List Char), s.length ≤ n → wordRuns s = spec_word_runs s from
    h s.length s (le_refl _)
  intro n
  induction n with
  | zero =>
    intro s hs
    have : s = [] := List.length_eq_zero.1 (by omega)
    subst this
    rfl
  | succ n ih =>
    intro s hs
    cases s with
    | nil => rfl
    | cons c cs =>
      rw [wordRuns_cons]
      have hcs : cs.length ≤ n := by simp at hs; omega
      have hdlen : (cs.dropWhile isWordChar).length ≤ cs.length :=
        (List.dropWhile_sublist _).length_le
      by_cases hc : isWordChar c
      · rw [if_pos hc]
        have hsplit : cs.takeWhile isWordChar ++ cs.dropWhile isWordChar = cs :=
          List.takeWhile_append_dropWhile ..
        have hdrop : specRunsAux (cs.dropWhile isWordChar)
            = ([], spec_word_runs (cs.dropWhile isWordChar)) := by
          apply specRunsAux_of_nonword_head
          cases hD : cs.dropWhile isWordChar with
          | nil => exact Or.inl rfl
          | cons d rest =>
            refine Or.inr ⟨d, rest, rfl, ?_⟩
            have hh := List.head?_dropWhile_not isWordChar cs
            rw [hD] at hh
            simpa using hh
        have h1 : specRunsAux cs
            = (cs.takeWhile isWordChar, spec_word_runs (cs.dropWhile isWordChar)) := by
          have he : specRunsAux cs
              = specRunsAux (cs.takeWhile isWordChar ++ cs.dropWhile isWordChar) := by
            rw [hsplit]
          rw [he]
          show (cs.takeWhile isWordChar ++ cs.dropWhile isWordChar).foldr specRunsStep
              ([], []) = _
          rw [List.foldr_append]
          have hall : ∀ x ∈ cs.takeWhile isWordChar, isWordChar x = true := fun x hx =>
            List.mem_takeWhile_imp hx
          rw [show (cs.dropWhile isWordChar).foldr specRunsStep ([], [])
              = specRunsAux _ from rfl, hdrop, specRunsAux_all_word _ _ hall]
          simp
        have h2 : specRunsAux (c :: cs) = specRunsStep c (specRunsAux cs) := rfl
        rw [ih _ (le_trans hdlen hcs)]
        simp only [spec_word_runs, h2, h1, specRunsStep, hc, if_pos]
        simp [hdrop]
      · rw [if_neg hc]
        have h2 : specRunsAux (c :: cs) = ([], spec_word_runs cs) := by
          show specRunsStep c (specRunsAux cs) = _
          simp only [specRunsStep, hc, Bool.false_eq_true, if_false, spec_word_runs]
        rw [ih cs hcs]
        simp only [spec_word_runs, h2]
        simp

/-! ## The keep-loop matches filter-then-dedup -/

theorem keepVariables_go (ms : List String) : ∀ acc : List String,
    ms.foldl (fun acc x => if (strLower x) ∉ operatorWords ∧ x ∉ acc then acc ++ [x] else acc) acc
      = acc ++ spec_dedup (ms.filter
          (fun x => !(operatorWords.contains (strLower x)) && !(acc.contains x))) := by
  induction ms with
  | nil => intro acc; simp [spec_dedup]
  | cons x xs ih =>
    intro acc
    by_cases hop : (strLower x) ∈ operatorWords
    · have hb : (!(operatorWords.contains (strLower x)) && !(acc.contains x)) = false := by
        simp [List.contains, List.elem_eq_mem, hop]
      simp only [List.foldl_cons, List.filter_cons, hb, Bool.false_eq_true, if_false]
      rw [if_neg (by simp [hop])]
      exact ih acc
    · by_cases hacc : x ∈ acc
      · have hb : (!(operatorWords.contains (strLower x)) && !(acc.contains x)) = false := by
          simp [List.contains, List.elem_eq_mem, hacc]
        simp only [List.foldl_cons, List.filter_cons, hb, Bool.false_eq_true, if_false]
        rw [if_neg (by simp [hacc])]
        exact ih acc
      · have hb : (!(operatorWords.contains (strLower x)) && !(acc.contains x)) = true := by
          simp [List.contains, List.elem_eq_mem, hop, hacc]
        simp only [List.foldl_cons, List.filter_cons, hb, if_pos]
        rw [if_pos ⟨hop, hacc⟩, ih (acc ++ [x])]
        simp only [spec_dedup, List.filter_filter]
        rw [List.filter_congr (fun a _ => ?_), List.append_assoc]
        · rfl
        · by_cases h1 : a = x <;> by_cases h2 : a ∈ acc <;>
            by_cases h3 : (strLower a) ∈ operatorWords <;>
            simp [List.contains, List.elem_eq_mem, h1, h2, h3]

theorem keepVariables_eq_spec (ms : List String) :
    keepVariables ms
      = spec_dedup (ms.filter (fun x => !(operatorWords.contains (strLower x)))) := by
  have h := keepVariables_go ms []
  simpa [keepVariables] using h

theorem findIdents_eq_spec (s : List Char) : findIdents s = spec_identifier_tokens s := by
  simp only [findIdents, spec_identifier_tokens, wordRuns_eq_spec]

/-! ## Properties of `latestDepIndex` -/

theorem ldiStep_le (l : List String) (acc : Option Nat) (d : String) (a : Nat)
    (ha : acc = some a) : ∃ b, ldiStep l acc d = some b ∧ a ≤ b := by
  subst ha
  unfold ldiStep
  cases h : l.findIdx? (fun c => c == d) with
  | none => exact ⟨a, rfl, le_refl a⟩
  | some j => exact ⟨max a j, rfl, le_max_left a j⟩

theorem latestDepIndex_go_le (l : List String) (deps : List String) :
    ∀ (acc : Option Nat) (v : Nat), deps.foldl (ldiStep l) acc = some v →
      (∀ a, acc = some a → a ≤ v) ∧
      (∀ d ∈ deps, ∀ j, l.findIdx? (fun c => c == d) = some j → j ≤ v) := by
  induction deps with
  | nil =>
    intro acc v h
    simp only [List.foldl_nil] at h
    exact ⟨fun a ha => by simp [ha] at h; omega, by simp⟩
  | cons d ds ih =>
    intro acc v h
    simp only [List.foldl_cons] at h
    obtain ⟨h1, h2⟩ := ih (ldiStep l acc d) v h
    constructor
    · intro a ha
      obtain ⟨b, hb, hab⟩ := ldiStep_le l acc d a ha
      exact le_trans hab (h1 b hb)
    · intro d' hd' j hj
      rcases List.mem_cons.1 hd' with rfl | hd'
      · have hstep : ∃ b, ldiStep l acc d' = some b ∧ j ≤ b := by
          unfold ldiStep
          rw [hj]
          cases acc with
          | none => exact ⟨j, rfl, le_refl j⟩
          | some a => exact ⟨max a j, rfl, le_max_right a j⟩
        obtain ⟨b, hb, hjb⟩ := hstep
        exact le_trans hjb (h1 b hb)
      · exact h2 d' hd' j hj

theorem ldiStep_none_eq (l : List String) (d : String) :
    ldiStep l none d = l.findIdx? (fun c => c == d) := by
  unfold ldiStep
  cases h : l.findIdx? (fun c => c == d) <;> rfl

theorem ldiStep_some_eq (l : List String) (d : String) (a : Nat) :
    ldiStep l (some a) d
      = some (match l.findIdx? (fun c => c == d) with
              | some j => max a j
              | none => a) := by
  unfold ldiStep
  cases h : l.findIdx? (fun c => c == d) <;> rfl

theorem latestDepIndex_go_mem (l : List String) (deps : List String) :
    ∀ (acc : Option Nat) (v : Nat), deps.foldl (ldiStep l) acc = some v →
      acc = some v ∨ ∃ d ∈ deps, l.findIdx? (fun c => c == d) = some v := by
  induction deps with
  | nil =>
    intro acc v h
    simp only [List.foldl_nil] at h
    exact Or.inl h
  | cons d ds ih =>
    intro acc v h
    simp only [List.foldl_cons] at h
    rcases ih (ldiStep l acc d) v h with hstep | ⟨d', hd', hfind⟩
    · cases hacc : acc with
      | none =>
        rw [hacc, ldiStep_none_eq] at hstep
        exact Or.inr ⟨d, by simp, hstep⟩
      | some a =>
        rw [hacc, ldiStep_some_eq] at hstep
        cases hf : l.findIdx? (fun c => c == d) with
        | none =>
          rw [hf] at hstep
          exact Or.inl (by rw [hstep])
        | some j =>
          rw [hf] at hstep
          simp only [Option.some.injEq] at hstep
          rcases max_choice a j with hm | hm
          · rw [hm] at hstep
            exact Or.inl (by rw [hstep])
          · rw [hm] at hstep
            exact Or.inr ⟨d, by simp, by rw [hf, hstep]⟩
    · exact Or.inr ⟨d', by simp [hd'], hfind⟩

theorem latestDepIndex_go_none (l : List String) (deps : List String) :
    ∀ acc : Option Nat, deps.foldl (ldiStep l) acc = none →
      acc = none ∧ ∀ d ∈ deps, l.findIdx? (fun c => c == d) = none := by
  induction deps with
  | nil =>
    intro acc h
    simp only [List.foldl_nil] at h
    exact ⟨h, by simp⟩
  | cons d ds ih =>
    intro acc h
    simp only [List.foldl_cons] at h
    obtain ⟨hstep, hds⟩ := ih (ldiStep l acc d) h
    cases hacc : acc with
    | none =>
      rw [hacc, ldiStep_none_eq] at hstep
      refine ⟨rfl, fun d' hd' => ?_⟩
      rcases List.mem_cons.1 hd' with rfl | h'
      · exact hstep
      · exact hds d' h'
    | some a =>
      rw [hacc, ldiStep_some_eq] at hstep
      simp at hstep

/-! ## Properties of the violation scan -/

theorem violationAt_some_iff (m : DepMap) (l : List String) (i : Nat) (t : String) (v : Nat)
    (h : violationAt m l i t = some v) :
    latestDepIndex l (lookupDeps m t) = some v ∧ i < v := by
  unfold violationAt at h
  cases hl : latestDepIndex l (lookupDeps m t) with
  | none => rw [hl] at h; simp at h
  | some w =>
    rw [hl] at h
    simp only at h
    by_cases hc : i < w
    · rw [if_pos hc] at h
      obtain rfl := Option.some.inj h
      exact ⟨rfl, hc⟩
    · rw [if_neg hc] at h
      simp at h

theorem violationAt_none_le (m : DepMap) (l : List String) (i : Nat) (t : String)
    (hn : violationAt m l i t = none) (w : Nat)
    (hw : latestDepIndex l (lookupDeps m t) = some w) : w ≤ i := by
  unfold violationAt at hn
  rw [hw] at hn
  simp only at hn
  by_cases hc : i < w
  · rw [if_pos hc] at hn; simp at hn
  · omega

theorem firstViolationAux_some (m : DepMap) (l : List String) (s : List String) :
    ∀ (k i : Nat) (t : String) (v : Nat),
      firstViolationAux m l k s = some (i, t, v) →
        ∃ p, ∃ hp : p < s.length,
          i = k + p ∧ s.get ⟨p, hp⟩ = t ∧ violationAt m l i t = some v := by
  induction s with
  | nil => intro k i t v h; simp [firstViolationAux] at h
  | cons t0 rest ih =>
    intro k i t v h
    unfold firstViolationAux at h
    cases hva : violationAt m l k t0 with
    | some w =>
      rw [hva] at h
      simp only [Option.some.injEq, Prod.mk.injEq] at h
      obtain ⟨rfl, rfl, rfl⟩ := h
      exact ⟨0, by simp, by omega, rfl, hva⟩
    | none =>
      rw [hva] at h
      simp only at h
      obtain ⟨p, hp, hik, hget, hv⟩ := ih (k + 1) i t v h
      exact ⟨p + 1, by simpa using hp, by omega, by simpa using hget, hv⟩

theorem firstViolationAux_none (m : DepMap) (l : List String) (s : List String) :
    ∀ k : Nat, firstViolationAux m l k s = none →
      ∀ p, ∀ hp : p < s.length, violationAt m l (k + p) (s.get ⟨p, hp⟩) = none := by
  induction s with
  | nil => intro k _ p hp; simp at hp
  | cons t0 rest ih =>
    intro k h p hp
    unfold firstViolationAux at h
    cases hva : violationAt m l k t0 with
    | some w => rw [hva] at h; simp at h
    | none =>
      rw [hva] at h
      simp only at h
      cases p with
      | zero => simpa using hva
      | succ q =>
        have := ih (k + 1) h q (by simpa using hp)
        simpa [Nat.add_assoc, Nat.add_comm 1 q] using this

theorem firstViolation_some (m : DepMap) (l : List String) (i : Nat) (t : String) (v : Nat)
    (h : firstViolation m l = some (i, t, v)) :
    ∃ hi : i < l.length, l.get ⟨i, hi⟩ = t ∧ violationAt m l i t = some v := by
  obtain ⟨p, hp, hik, hget, hv⟩ := firstViolationAux_some m l l 0 i t v h
  have hpi : i = p := by omega
  subst hpi
  exact ⟨hp, hget, hv⟩

theorem firstViolation_none (m : DepMap) (l : List String)
    (h : firstViolation m l = none) :
    ∀ i, ∀ hi : i < l.length, violationAt m l i (l.get ⟨i, hi⟩) = none := by
  intro i hi
  simpa using firstViolationAux_none m l l 0 h i hi

/-! ## The shape of one move -/

theorem eraseIdx_append_len (A : List String) (x : String) (M : List String) :
    (A ++ x :: M).eraseIdx A.length = A ++ M := by
  induction A with
  | nil => rfl
  | cons a A ih => simpa [List.eraseIdx_cons_succ] using ih

theorem insertIdx_append_len (A : List String) (x : String) (M : List String) :
    List.insertIdx A.length x (A ++ M) = A ++ x :: M := by
  induction A with
  | nil => rfl
  | cons a A ih =>
    show a :: List.insertIdx A.length x (A ++ M) = _
    rw [ih]
    rfl

/-- Unpacking one successful `moveStep`: the working list decomposes as
`A ++ T :: (B ++ D :: C)` — `T` the first violating tag, `D` (the first
occurrence of) the latest-positioned dependency of `T` — and the move produces
`A ++ B ++ D :: T :: C`, i.e. reinserts `T` immediately after `D`. -/
theorem moveStep_spec (m : DepMap) (l l2 : List String) (h : moveStep m l = some l2) :
    ∃ (A B C : List String) (T D : String),
      l = A ++ T :: (B ++ D :: C) ∧
      l2 = A ++ (B ++ (D :: T :: C)) ∧
      D ∈ lookupDeps m T ∧ D ≠ T ∧ D ∉ B := by
  unfold moveStep at h
  cases hfv : firstViolation m l with
  | none => rw [hfv] at h; simp at h
  | some itv =>
    obtain ⟨i, t, v⟩ := itv
    rw [hfv] at h
    simp only [Option.some.injEq] at h
    obtain ⟨hi, hti, hva⟩ := firstViolation_some m l i t v hfv
    obtain ⟨hlat, hiv⟩ := violationAt_some_iff m l i t v hva
    have hmem := latestDepIndex_go_mem l (lookupDeps m t) none v hlat
    rcases hmem with hbad | ⟨d, hdmem, hfind⟩
    · simp at hbad
    obtain ⟨hv, hpv, hbefore⟩ := List.findIdx?_eq_some_iff_getElem.1 hfind
    have hlvd : l[v] = d := by
      have := hpv
      simpa [beq_iff_eq] using this
    have hlit : l[i] = t := hti
    refine ⟨l.take i, (l.drop (i + 1)).take (v - i - 1), l.drop (v + 1), t, d, ?_, ?_, ?_, ?_, ?_⟩
    · -- l = A ++ T :: (B ++ D :: C)
      conv_lhs => rw [← List.take_append_drop i l]
      congr 1
      rw [List.drop_eq_getElem_cons hi, hlit]
      congr 1
      conv_lhs => rw [← List.take_append_drop (v - i - 1) (l.drop (i + 1))]
      congr 1
      rw [List.drop_drop]
      have hv' : i + 1 + (v - i - 1) = v := by omega
      rw [hv', List.drop_eq_getElem_cons hv, hlvd]
    · -- l2 = A ++ (B ++ (D :: T :: C))
      subst h
      have hA : (l.take i).length = i := by
        rw [List.length_take]; omega
      set B : List String := (l.drop (i + 1)).take (v - i - 1) with hBdef
      have hB : B.length = v - i - 1 := by
        rw [hBdef, List.length_take, List.length_drop]; omega
      have hdrop : l.drop (i + 1) = B ++ l[v] :: l.drop (v + 1) := by
        rw [hBdef]
        conv_lhs => rw [← List.take_append_drop (v - i - 1) (l.drop (i + 1))]
        congr 1
        rw [List.drop_drop]
        have hv' : i + 1 + (v - i - 1) = v := by omega
        rw [hv', List.drop_eq_getElem_cons hv]
      set X : List String := l.take i ++ (B ++ [l[v]]) with hXdef
      have hXlen : v = X.length := by
        rw [hXdef]
        simp only [List.length_append, hA, hB, List.length_cons, List.length_nil]
        omega
      have hstep1 : l.eraseIdx i = X ++ l.drop (v + 1) := by
        rw [List.eraseIdx_eq_take_drop_succ, hdrop, hXdef]
        simp
      rw [hstep1, hXlen, insertIdx_append_len, hXdef, hlvd]
      simp
    · -- D ∈ lookupDeps m T
      exact hdmem
    · -- D ≠ T
      intro hdt
      have := hbefore i hiv
      rw [hlit] at this
      exact this (by simp [hdt])
    · -- D ∉ B
      intro hdB
      obtain ⟨p, hp, hgp⟩ := List.mem_iff_getElem.1 hdB
      have hplen : p < v - i - 1 := by
        have := hp
        rw [List.length_take, List.length_drop] at this
        omega
      have hb2 : i + 1 + p < l.length := by omega
      have hgp2 : l[i + 1 + p] = d := by
        rw [← hgp, List.getElem_take, List.getElem_drop]
      have := hbefore (i + 1 + p) (by omega)
      rw [hgp2] at this
      simp at this

theorem moveStep_perm (m : DepMap) (l l2 : List String) (h : moveStep m l = some l2) :
    l2.Perm l := by
  obtain ⟨A, B, C, T, D, hl, hl2, _, _, _⟩ := moveStep_spec m l l2 h
  subst hl hl2
  refine List.Perm.append_left A ?_
  have h1 : B ++ D :: T :: C = (B ++ [D]) ++ T :: C := by simp
  have h2 : T :: (B ++ D :: C) = T :: ((B ++ [D]) ++ C) := by simp
  rw [h1, h2]
  exact List.perm_middle

theorem ne_middle (T D : String) : ∀ (B : List String) (C : List String),
    D ∉ B → D ≠ T → B ++ D :: T :: C ≠ T :: (B ++ D :: C) := by
  intro B
  induction B with
  | nil =>
    intro C _ hDT heq
    simp only [List.nil_append, List.cons.injEq] at heq
    exact hDT heq.1
  | cons b B' ih =>
    intro C hDB hDT heq
    simp only [List.cons_append, List.cons.injEq] at heq
    obtain ⟨rfl, heq2⟩ := heq
    exact ih C (fun hh => hDB (by simp [hh])) hDT heq2

/-- A successful move always changes the working list, so the Python loop's
exit test `ordered_tags == previous_order` is equivalent to "no move in this
pass". -/
theorem moveStep_changes (m : DepMap) (l l2 : List String) (h : moveStep m l = some l2) :
    l2 ≠ l := by
  obtain ⟨A, B, C, T, D, hl, hl2, _, hDT, hDB⟩ := moveStep_spec m l l2 h
  subst hl hl2
  intro heq
  have := List.append_cancel_left heq
  exact ne_middle T D B C hDB hDT this

theorem orderLoop_done (m : DepMap) (l : List String) (h : moveStep m l = none) :
    ∀ n, orderLoop m n l = l := by
  intro n
  cases n with
  | zero => rfl
  | succ k => unfold orderLoop; rw [h]

theorem orderLoop_perm (m : DepMap) : ∀ (n : Nat) (l : List String),
    (orderLoop m n l).Perm l := by
  intro n
  induction n with
  | zero => intro l; exact List.Perm.refl l
  | succ k ih =>
    intro l
    unfold orderLoop
    cases h : moveStep m l with
    | none => exact List.Perm.refl l
    | some l2 => exact (ih l2).trans (moveStep_perm m l l2 h)

theorem moveStep_none_iff_satisfied (m : DepMap) (l : List String) :
    moveStep m l = none ↔ DepsSatisfied m l := by
  constructor
  · intro h i hi dd hd j hj
    have hfv : firstViolation m l = none := by
      unfold moveStep at h
      cases hf : firstViolation m l with
      | none => rfl
      | some itv => rw [hf] at h; obtain ⟨a, b, c⟩ := itv; simp at h
    have hva := firstViolation_none m l hfv i hi
    cases hl : latestDepIndex l (lookupDeps m (l.get ⟨i, hi⟩)) with
    | none =>
      have hnone := (latestDepIndex_go_none l _ none hl).2 dd hd
      rw [hnone] at hj
      exact absurd hj (by simp)
    | some w =>
      have hwi := violationAt_none_le m l i (l.get ⟨i, hi⟩) hva w hl
      have hjw := (latestDepIndex_go_le l _ none w hl).2 dd hd j hj
      omega
  · intro hsat
    unfold moveStep
    cases hf : firstViolation m l with
    | none => rfl
    | some itv =>
      exfalso
      obtain ⟨i, t, v⟩ := itv
      obtain ⟨hi, hti, hva⟩ := firstViolation_some m l i t v hf
      obtain ⟨hlat, hiv⟩ := violationAt_some_iff m l i t v hva
      rcases latestDepIndex_go_mem l (lookupDeps m t) none v hlat with hbad | ⟨d, hd, hfind⟩
      · simp at hbad
      · have := hsat i hi d (by rw [hti]; exact hd) v hfind
        omega

/-! ## Algebra of the measure -/

theorem crossCount_nil_left (rB : String → String → Bool) (W : String → Nat)
    (ys : List String) : crossCount rB W [] ys = 0 := rfl

theorem crossCount_cons_left (rB : String → String → Bool) (W : String → Nat)
    (x : String) (xs ys : List String) :
    crossCount rB W (x :: xs) ys
      = ys.countP (fun y => rB y x) * W x + crossCount rB W xs ys := by
  simp [crossCount]

theorem crossCount_append_right (rB : String → String → Bool) (W : String → Nat)
    (xs ys zs : List String) :
    crossCount rB W xs (ys ++ zs)
      = crossCount rB W xs ys + crossCount rB W xs zs := by
  induction xs with
  | nil => rfl
  | cons x xs ih =>
    rw [crossCount_cons_left, crossCount_cons_left, crossCount_cons_left,
      List.countP_append, ih]
    ring

theorem crossCount_perm_right (rB : String → String → Bool) (W : String → Nat)
    (xs : List String) {ys ys' : List String} (h : ys.Perm ys') :
    crossCount rB W xs ys = crossCount rB W xs ys' := by
  unfold crossCount
  congr 1
  exact List.map_congr_left (fun x _ => by rw [h.countP_eq])

theorem phi_nil (rB : String → String → Bool) (W : String → Nat) :
    phi rB W [] = 0 := rfl

theorem phi_cons (rB : String → String → Bool) (W : String → Nat)
    (x : String) (xs : List String) :
    phi rB W (x :: xs) = xs.countP (fun y => rB y x) * W x + phi rB W xs := rfl

theorem phi_append (rB : String → String → Bool) (W : String → Nat)
    (xs ys : List String) :
    phi rB W (xs ++ ys) = phi rB W xs + crossCount rB W xs ys + phi rB W ys := by
  induction xs with
  | nil => simp [phi_nil, crossCount_nil_left]
  | cons x xs ih =>
    rw [List.cons_append, phi_cons, phi_cons, crossCount_cons_left, ih,
      List.countP_append]
    ring

theorem crossCount_single_lt (rB : String → String → Bool) (σ : String → Nat) (n : Nat)
    (B : List String) (T : String)
    (hmono : ∀ b, rB T b = true → σ b < σ T)
    (hB : B.length ≤ n) :
    crossCount rB (fun x => (n + 1) ^ σ x) B [T]
      < (B.countP (fun y => rB y T) + 1) * ((n + 1) ^ σ T) := by
  have hWpos : 0 < (n + 1) ^ σ T := Nat.pos_pow_of_pos _ (by omega)
  cases hσ : σ T with
  | zero =>
    have hz : crossCount rB (fun x => (n + 1) ^ σ x) B [T] = 0 := by
      unfold crossCount
      apply List.sum_eq_zero
      intro y hy
      obtain ⟨b, hb, rfl⟩ := List.mem_map.1 hy
      have hfb : rB T b = false := by
        cases hrb : rB T b
        · rfl
        · have := hmono b hrb
          omega
      simp [List.countP_cons, hfb]
    rw [hz]
    exact Nat.mul_pos (by omega) (by simp)
  | succ s =>
    have hpt : ∀ y ∈ B.map (fun x =>
        List.countP (fun z => rB z x) [T] * (n + 1) ^ σ x), y ≤ (n + 1) ^ s := by
      intro y hy
      obtain ⟨b, hb, rfl⟩ := List.mem_map.1 hy
      cases hrb : rB T b with
      | false => simp [List.countP_cons, hrb]
      | true =>
        have hσb : σ b ≤ s := by
          have := hmono b hrb
          omega
        have h1 : List.countP (fun z => rB z b) [T] = 1 := by
          simp [List.countP_cons, hrb]
        rw [h1, Nat.one_mul]
        exact Nat.pow_le_pow_right (by omega) hσb
    have hsum : crossCount rB (fun x => (n + 1) ^ σ x) B [T]
        ≤ B.length * (n + 1) ^ s := by
      unfold crossCount
      have := List.sum_le_card_nsmul _ _ hpt
      simpa [List.length_map, smul_eq_mul] using this
    have hlt : B.length * (n + 1) ^ s < (n + 1) ^ (s + 1) := by
      have hpow : 0 < (n + 1) ^ s := Nat.pos_pow_of_pos _ (by omega)
      calc B.length * (n + 1) ^ s ≤ n * (n + 1) ^ s :=
            Nat.mul_le_mul_right _ hB
        _ < (n + 1) * (n + 1) ^ s := by
            exact Nat.mul_lt_mul_of_lt_of_le (by omega) (le_refl _) hpow
        _ = (n + 1) ^ (s + 1) := by rw [Nat.pow_succ]; ring
    have hfin : (n + 1) ^ (s + 1)
        ≤ (B.countP (fun y => rB y T) + 1) * (n + 1) ^ (s + 1) :=
      Nat.le_mul_of_pos_left _ (by omega)
    omega

theorem crossCount_nil_right (rB : String → String → Bool) (W : String → Nat)
    (xs : List String) : crossCount rB W xs [] = 0 := by
  simp [crossCount]

theorem crossCount_cons_right (rB : String → String → Bool) (W : String → Nat)
    (xs : List String) (y : String) (ys : List String) :
    crossCount rB W xs (y :: ys) = crossOne rB W xs y + crossCount rB W xs ys := by
  induction xs with
  | nil => rfl
  | cons x xs ih =>
    rw [crossCount_cons_left, crossCount_cons_left, ih]
    unfold crossOne
    simp only [List.map_cons, List.sum_cons, List.countP_cons]
    ring

theorem crossOne_lt (rB : String → String → Bool) (σ : String → Nat) (n : Nat)
    (B : List String) (T : String)
    (hmono : ∀ b, rB T b = true → σ b < σ T)
    (hB : B.length ≤ n) :
    crossOne rB (fun x => (n + 1) ^ σ x) B T
      < (B.countP (fun y => rB y T) + 1) * ((n + 1) ^ σ T) := by
  have h := crossCount_single_lt rB σ n B T hmono hB
  rw [crossCount_cons_right, crossCount_nil_right] at h
  simpa using h

/-- The central inequality: a move of `T` from before `B ++ D :: _` to just
after `D` strictly decreases the measure, when `rB` relates `D` before `T` but
not conversely and the rank `σ` strictly drops across `rB` from `T`. -/
theorem phi_move_lt (rB : String → String → Bool) (σ : String → Nat) (n : Nat)
    (A B C : List String) (T D : String)
    (hDT : rB D T = true) (hTD : rB T D = false)
    (hmono : ∀ b, rB T b = true → σ b < σ T)
    (hB : B.length ≤ n) :
    phi rB (fun x => (n + 1) ^ σ x) (A ++ (B ++ (D :: T :: C)))
      < phi rB (fun x => (n + 1) ^ σ x) (A ++ (T :: (B ++ D :: C))) := by
  have key := crossOne_lt rB σ n B T hmono hB
  simp only [phi_append, phi_cons, crossCount_append_right, crossCount_cons_right,
    crossCount_nil_right, List.countP_append, List.countP_cons, List.countP_nil,
    hDT, hTD, if_true, if_false, Bool.false_eq_true, Nat.add_zero, Nat.zero_add] at *
  linarith

/-! ## From acyclicity to a strictly decreasing measure -/

theorem countP_lt_countP {α : Type} (L : List α) (p q : α → Bool)
    (hpq : ∀ x ∈ L, p x = true → q x = true) (a : α) (ha : a ∈ L)
    (hq : q a = true) (hp : p a = false) : L.countP p < L.countP q := by
  induction L with
  | nil => simp at ha
  | cons x L ih =>
    rw [List.countP_cons, List.countP_cons]
    rcases List.mem_cons.1 ha with rfl | haL
    · have hmon : L.countP p ≤ L.countP q :=
        List.countP_mono_left (fun y hy => hpq y (by simp [hy]))
      rw [hp, hq]
      simp only [if_true, Bool.false_eq_true, if_false]
      omega
    · have hlt := ih (fun y hy => hpq y (by simp [hy])) haL
      have hhead : (if p x = true then 1 else 0) ≤ (if q x = true then 1 else 0) := by
        cases hpx : p x with
        | false => simp
        | true => simp [hpq x (by simp) hpx]
      omega

theorem depEdgeNS_mem (m : DepMap) (l : List String) {a b : String}
    (h : Relation.TransGen (DepEdgeNS m l) a b) : a ∈ l ∧ b ∈ l := by
  induction h with
  | single hab => exact ⟨hab.1.1, hab.1.2.1⟩
  | tail _ hbc ih => exact ⟨ih.1, hbc.1.2.1⟩

/-- Under acyclicity there is a boolean order `rB` and a rank `σ` making the
measure `phi` strictly decrease across every `moveStep`. -/
theorem moveStep_phi_lt (m : DepMap) (l0 : List String)
    (hacy : ∀ t, ¬ Relation.TransGen (DepEdgeNS m l0) t t) :
    ∃ (rB : String → String → Bool) (σ : String → Nat),
      ∀ l l2, (∀ x ∈ l, x ∈ l0) → l.length ≤ l0.length → moveStep m l = some l2 →
        phi rB (fun x => (l0.length + 1) ^ σ x) l2
          < phi rB (fun x => (l0.length + 1) ^ σ x) l := by
  classical
  refine ⟨fun d t => decide (Relation.TransGen (DepEdgeNS m l0) d t),
    fun t => l0.dedup.countP (fun s => decide (Relation.TransGen (DepEdgeNS m l0) t s)),
    ?_⟩
  intro l l2 hsub hlen hmove
  obtain ⟨A, B, C, T, D, hl, hl2, hdep, hDT, hDB⟩ := moveStep_spec m l l2 hmove
  have hTl : T ∈ l := by rw [hl]; simp
  have hDl : D ∈ l := by rw [hl]; simp
  have hedge : DepEdgeNS m l0 D T := ⟨⟨hsub D hDl, hsub T hTl, hdep⟩, hDT⟩
  have hRDT : Relation.TransGen (DepEdgeNS m l0) D T := Relation.TransGen.single hedge
  have hrDT : decide (Relation.TransGen (DepEdgeNS m l0) D T) = true :=
    decide_eq_true hRDT
  have hrTD : decide (Relation.TransGen (DepEdgeNS m l0) T D) = false := by
    simp only [decide_eq_false_iff_not]
    intro hRTD
    exact hacy T (hRTD.trans hRDT)
  have hmono : ∀ b, decide (Relation.TransGen (DepEdgeNS m l0) T b) = true →
      l0.dedup.countP (fun s => decide (Relation.TransGen (DepEdgeNS m l0) b s))
        < l0.dedup.countP (fun s => decide (Relation.TransGen (DepEdgeNS m l0) T s)) := by
    intro b hTb
    have hRTb : Relation.TransGen (DepEdgeNS m l0) T b := of_decide_eq_true hTb
    apply countP_lt_countP
    · intro s _ hbs
      exact decide_eq_true (hRTb.trans (of_decide_eq_true hbs))
    · exact List.mem_dedup.2 (depEdgeNS_mem m l0 hRTb).2
    · exact decide_eq_true hRTb
    · simp only [decide_eq_false_iff_not]
      exact hacy b
  have hBlen : B.length ≤ l0.length := by
    have : l.length = A.length + (1 + (B.length + (1 + C.length))) := by
      rw [hl]; simp [List.length_append]; omega
    omega
  rw [hl, hl2]
  exact phi_move_lt _ _ l0.length A B C T D hrDT hrTD hmono hBlen

/-- The master termination theorem: for dependency data that is acyclic on the
names of the input order (self-edges excluded), the repair loop reaches a pass
with no move. -/
theorem orderLoop_reaches_fixpoint (m : DepMap) (l0 : List String)
    (hacy : ∀ t, ¬ Relation.TransGen (DepEdgeNS m l0) t t) :
    ∃ n, moveStep m (orderLoop m n l0) = none := by
  obtain ⟨rB, σ, hdec⟩ := moveStep_phi_lt m l0 hacy
  suffices h : ∀ (k : Nat) (l : List String), (∀ x ∈ l, x ∈ l0) → l.length ≤ l0.length →
      phi rB (fun x => (l0.length + 1) ^ σ x) l ≤ k →
      ∃ n, moveStep m (orderLoop m n l) = none by
    exact h _ l0 (fun x hx => hx) (le_refl _) (le_refl _)
  intro k
  induction k with
  | zero =>
    intro l hsub hlen hphi
    cases hms : moveStep m l with
    | none => exact ⟨0, hms⟩
    | some l2 =>
      have := hdec l l2 hsub hlen hms
      omega
  | succ k ih =>
    intro l hsub hlen hphi
    cases hms : moveStep m l with
    | none => exact ⟨0, hms⟩
    | some l2 =>
      have hlt := hdec l l2 hsub hlen hms
      have hperm := moveStep_perm m l l2 hms
      have hsub2 : ∀ x ∈ l2, x ∈ l0 := fun x hx => hsub x (hperm.mem_iff.1 hx)
      have hlen2 : l2.length ≤ l0.length := by rw [hperm.length_eq]; exact hlen
      obtain ⟨n, hn⟩ := ih l2 hsub2 hlen2 (by omega)
      refine ⟨n + 1, ?_⟩
      have hstep : orderLoop m (n + 1) l = orderLoop m n l2 := by
        rw [show orderLoop m (n + 1) l
            = (match moveStep m l with
               | none => l
               | some l3 => orderLoop m n l3) from rfl, hms]
      rw [hstep]
      exact hn

/-! ## Depth-first search: state growth, fuel stability -/

theorem foldl_inv {β : Type} (Inv : β → Prop) (f : β → String → β) (L : List String)
    (hstep : ∀ s x, x ∈ L → Inv s → Inv (f s x)) :
    ∀ s, Inv s → Inv (L.foldl f s) := by
  induction L with
  | nil => intro s hs; exact hs
  | cons x L ih =>
    intro s hs
    exact ih (fun s' y hy hs' => hstep s' y (by simp [hy]) hs') (f s x)
      (hstep s x (by simp) hs)

theorem foldl_congr_fun {β : Type} (f g : β → String → β) (L : List String)
    (h : ∀ s x, x ∈ L → f s x = g s x) : ∀ s, L.foldl f s = L.foldl g s := by
  induction L with
  | nil => intro s; rfl
  | cons x L ih =>
    intro s
    rw [List.foldl_cons, List.foldl_cons, h s x (by simp)]
    exact ih (fun s' y hy => h s' y (by simp [hy])) (g s x)

/-- `dfs` only appends to `visited` and to `cycles`. -/
theorem dfs_state_ext (m : DepMap) : ∀ (fuel : Nat) (t : String) (path : List String)
    (st : List String × List (List String)),
    ∃ v c, (dfs m fuel t path st).1 = st.1 ++ v ∧ (dfs m fuel t path st).2 = st.2 ++ c := by
  intro fuel
  induction fuel with
  | zero => intro t path st; exact ⟨[], [], by simp [dfs], by simp [dfs]⟩
  | succ f ih =>
    intro t path st
    by_cases h1 : t ∈ path
    · exact ⟨[], [path.dropWhile (fun x => x != t) ++ [t]], by simp [dfs, h1], by simp [dfs, h1]⟩
    · by_cases h2 : t ∈ st.1
      · exact ⟨[], [], by simp [dfs, h1, h2], by simp [dfs, h1, h2]⟩
      · have hfold : ∀ (ds : List String) (s : List String × List (List String)),
            ∃ v c, (ds.foldl (fun s d => dfs m f d (path ++ [t]) s) s).1 = s.1 ++ v ∧
              (ds.foldl (fun s d => dfs m f d (path ++ [t]) s) s).2 = s.2 ++ c := by
          intro ds
          induction ds with
          | nil => intro s; exact ⟨[], [], by simp, by simp⟩
          | cons d ds ihd =>
            intro s
            obtain ⟨v1, c1, hv1, hc1⟩ := ih d (path ++ [t]) s
            obtain ⟨v2, c2, hv2, hc2⟩ := ihd (dfs m f d (path ++ [t]) s)
            exact ⟨v1 ++ v2, c1 ++ c2, by rw [List.foldl_cons, hv2, hv1, List.append_assoc],
              by rw [List.foldl_cons, hc2, hc1, List.append_assoc]⟩
        obtain ⟨v, c, hv, hc⟩ := hfold (lookupDeps m t) (st.1 ++ [t], st.2)
        refine ⟨[t] ++ v, c, ?_, ?_⟩
        · rw [show dfs m (f + 1) t path st
              = (lookupDeps m t).foldl (fun s d => dfs m f d (path ++ [t]) s)
                  (st.1 ++ [t], st.2) from by simp [dfs, h1, h2], hv]
          simp
        · rw [show dfs m (f + 1) t path st
              = (lookupDeps m t).foldl (fun s d => dfs m f d (path ++ [t]) s)
                  (st.1 ++ [t], st.2) from by simp [dfs, h1, h2], hc]

theorem length_filter_ne_of_nodup (L : List String) (hnd : L.Nodup) (t : String)
    (ht : t ∈ L) : (L.filter (fun x => x != t)).length + 1 = L.length := by
  induction L with
  | nil => simp at ht
  | cons x L ih =>
    rcases List.mem_cons.1 ht with rfl | htL
    · have hxt : (t != t) = false := by simp
      rw [List.filter_cons, hxt]
      simp only [Bool.false_eq_true, if_false]
      have hall : L.filter (fun y => y != t) = L := by
        rw [List.filter_eq_self]
        intro a ha
        have : a ≠ t := fun hax => (List.nodup_cons.1 hnd).1 (hax ▸ ha)
        simp [this]
      rw [hall]
      simp
    · have hxt : (x != t) = true := by
        have : x ≠ t := fun hxt => (List.nodup_cons.1 hnd).1 (hxt ▸ htL)
        simp [this]
      rw [List.filter_cons, hxt]
      simp only [if_true]
      have := ih (List.nodup_cons.1 hnd).2 htL
      simp only [List.length_cons]
      omega

theorem remainingNames_drop (m : DepMap) (path : List String) (t : String)
    (ht : t ∈ depUniv m) (htp : t ∉ path) :
    remainingNames m (path ++ [t]) + 1 = remainingNames m path := by
  unfold remainingNames
  have hsplit : ∀ x : String, (!((path ++ [t]).contains x))
      = ((!(path.contains x)) && (x != t)) := by
    intro x
    by_cases h1 : x ∈ path <;> by_cases h2 : x = t <;>
      simp [List.contains, List.elem_eq_mem, h1, h2]
  rw [List.filter_congr (fun x _ => hsplit x)]
  have hcomp : (depUniv m).dedup.filter (fun x => (!(path.contains x)) && (x != t))
      = ((depUniv m).dedup.filter (fun x => !(path.contains x))).filter (fun x => x != t) := by
    rw [List.filter_filter]
    exact List.filter_congr (fun x _ => by rw [Bool.and_comm])
  rw [hcomp]
  apply length_filter_ne_of_nodup
  · exact (List.nodup_dedup _).filter _
  · rw [List.mem_filter]
    refine ⟨List.mem_dedup.2 ht, ?_⟩
    simp [List.contains, List.elem_eq_mem, htp]

theorem lookupDeps_sub_univ (m : DepMap) (t d : String) (hd : d ∈ lookupDeps m t) :
    d ∈ depUniv m := by
  unfold lookupDeps at hd
  cases hf : m.find? (fun p => p.1 == t) with
  | none => rw [hf] at hd; simp at hd
  | some p =>
    rw [hf] at hd
    have hp : p ∈ m := List.mem_of_find?_eq_some hf
    unfold depUniv
    refine List.mem_append.2 (Or.inr ?_)
    exact List.mem_flatten.2 ⟨p.2, List.mem_map.2 ⟨p, hp, rfl⟩, hd⟩

theorem keys_sub_univ (m : DepMap) (t : String) (ht : t ∈ m.map Prod.fst) :
    t ∈ depUniv m := by
  unfold depUniv
  exact List.mem_append.2 (Or.inl ht)

theorem dfs_fuel_succ (m : DepMap) : ∀ (fuel : Nat) (t : String) (path : List String)
    (st : List String × List (List String)),
    remainingNames m path + 2 ≤ fuel → t ∈ depUniv m →
    dfs m fuel t path st = dfs m (fuel + 1) t path st := by
  intro fuel
  induction fuel with
  | zero => intro t path st hf _; omega
  | succ f ih =>
    intro t path st hf ht
    by_cases h1 : t ∈ path
    · simp [dfs, h1]
    · by_cases h2 : t ∈ st.1
      · simp [dfs, h1, h2]
      · rw [show dfs m (f + 1) t path st
            = (lookupDeps m t).foldl (fun s d => dfs m f d (path ++ [t]) s)
                (st.1 ++ [t], st.2) from by simp [dfs, h1, h2]]
        rw [show dfs m (f + 1 + 1) t path st
            = (lookupDeps m t).foldl (fun s d => dfs m (f + 1) d (path ++ [t]) s)
                (st.1 ++ [t], st.2) from by simp [dfs, h1, h2]]
        apply foldl_congr_fun
        intro s d hd
        apply ih
        · have := remainingNames_drop m path t ht h1
          omega
        · exact lookupDeps_sub_univ m t d hd

theorem dfs_fuel_add (m : DepMap) (fuel : Nat) (t : String) (path : List String)
    (st : List String × List (List String))
    (hf : remainingNames m path + 2 ≤ fuel) (ht : t ∈ depUniv m) :
    ∀ k, dfs m (fuel + k) t path st = dfs m fuel t path st := by
  intro k
  induction k with
  | zero => rfl
  | succ j ih =>
    rw [show fuel + (j + 1) = (fuel + j) + 1 from by omega,
      ← dfs_fuel_succ m (fuel + j) t path st (by omega) ht]
    exact ih

theorem remainingNames_nil (m : DepMap) :
    remainingNames m [] = (depUniv m).dedup.length := by
  unfold remainingNames
  rw [List.filter_eq_self.2 (fun a _ => by simp [List.contains])]

/-- Claim C8's stability: once the fuel reaches `detectBound`, more fuel can
no longer change the result of the traversal. -/
theorem detect_fuel_stable (m : DepMap) (fuel : Nat) (hf : detectBound m ≤ fuel) :
    detect_circular_dependencies m fuel = detect_circular_dependencies m (detectBound m) := by
  unfold detect_circular_dependencies
  congr 1
  apply foldl_congr_fun
  intro s t ht
  by_cases h1 : t ∈ s.1
  · simp [h1]
  · simp only [h1, if_false, Bool.false_eq_true]
    have htu : t ∈ depUniv m := keys_sub_univ m t ht
    have hbase : remainingNames m [] + 2 ≤ detectBound m := by
      rw [remainingNames_nil]; unfold detectBound; omega
    rw [show fuel = detectBound m + (fuel - detectBound m) from by omega,
      dfs_fuel_add m (detectBound m) t [] s hbase htu]

/-! ## Self-dependencies always produce the cycle `[t, t]` -/

theorem dropWhile_ne_append_self (path : List String) (t : String) (htp : t ∉ path) :
    (path ++ [t]).dropWhile (fun x => x != t) = [t] := by
  rw [List.dropWhile_append]
  have hall : path.dropWhile (fun x => x != t) = [] := by
    rw [List.dropWhile_eq_nil_iff]
    intro x hx
    have : x ≠ t := fun hxt => htp (hxt ▸ hx)
    simp [this]
  rw [hall]
  simp

/-- When `t` stores itself as a dependency, exploring `t` records the cycle
`[t, t]` (the self-edge child finds `t` on the path with `t` last). -/
theorem dfs_self (m : DepMap) (t : String) (hself : t ∈ lookupDeps m t)
    (fuel : Nat) (path : List String) (st : List String × List (List String))
    (hf : 2 ≤ fuel) (htp : t ∉ path) (htv : t ∉ st.1) :
    [t, t] ∈ (dfs m fuel t path st).2 := by
  obtain ⟨f, rfl⟩ : ∃ f, fuel = f + 1 := ⟨fuel - 1, by omega⟩
  rw [show dfs m (f + 1) t path st
      = (lookupDeps m t).foldl (fun s d => dfs m f d (path ++ [t]) s)
          (st.1 ++ [t], st.2) from by simp [dfs, htp, htv]]
  obtain ⟨L1, L2, hsplit⟩ := List.append_of_mem hself
  rw [hsplit, List.foldl_append, List.foldl_cons]
  obtain ⟨g, hg⟩ : ∃ g, f = g + 1 := ⟨f - 1, by omega⟩
  set s1 := L1.foldl (fun s d => dfs m f d (path ++ [t]) s) (st.1 ++ [t], st.2) with hs1
  have hchild : dfs m f t (path ++ [t]) s1
      = (s1.1, s1.2 ++ [[t, t]]) := by
    rw [hg]
    have htpath : t ∈ path ++ [t] := by simp
    rw [show dfs m (g + 1) t (path ++ [t]) s1
        = (s1.1, s1.2 ++ [(path ++ [t]).dropWhile (fun x => x != t) ++ [t]]) from by
          simp [dfs, htpath]]
    rw [dropWhile_ne_append_self path t htp]
    rfl
  rw [hchild]
  have hmem : [t, t] ∈ (s1.2 ++ [[t, t]]) := by simp
  have hfold : ∀ (ds : List String) (s : List String × List (List String)),
      [t, t] ∈ s.2 → [t, t] ∈ (ds.foldl (fun s d => dfs m f d (path ++ [t]) s) s).2 := by
    intro ds
    induction ds with
    | nil => intro s hs; exact hs
    | cons d ds ihd =>
      intro s hs
      rw [List.foldl_cons]
      apply ihd
      obtain ⟨v, c, _, hc⟩ := dfs_state_ext m f d (path ++ [t]) s
      rw [hc]
      exact List.mem_append.2 (Or.inl hs)
  exact hfold L2 (s1.1, s1.2 ++ [[t, t]]) hmem

theorem dfs_selfD (m : DepMap) (t : String) (hself : t ∈ lookupDeps m t) :
    ∀ (fuel : Nat) (u : String) (path : List String)
      (st : List String × List (List String)),
      remainingNames m path + 2 ≤ fuel → u ∈ depUniv m →
      (t ∈ st.1 → [t, t] ∈ st.2 ∨ t ∈ path) →
      (t ∈ (dfs m fuel u path st).1 → [t, t] ∈ (dfs m fuel u path st).2 ∨ t ∈ path) := by
  intro fuel
  induction fuel with
  | zero => intro u path st hf _ _; exact absurd hf (by omega)
  | succ f ih =>
    intro u path st hf hu hDP
    by_cases h1 : u ∈ path
    · rw [show dfs m (f + 1) u path st
          = (st.1, st.2 ++ [path.dropWhile (fun x => x != u) ++ [u]]) from by
            simp [dfs, h1]]
      intro htv
      rcases hDP htv with hc | hp
      · exact Or.inl (List.mem_append.2 (Or.inl hc))
      · exact Or.inr hp
    · by_cases h2 : u ∈ st.1
      · rw [show dfs m (f + 1) u path st = st from by simp [dfs, h1, h2]]
        exact hDP
      · by_cases hut : u = t
        · subst hut
          intro _
          exact Or.inl (dfs_self m u hself (f + 1) path st (by omega) h1 h2)
        · rw [show dfs m (f + 1) u path st
              = (lookupDeps m u).foldl (fun s d => dfs m f d (path ++ [u]) s)
                  (st.1 ++ [u], st.2) from by simp [dfs, h1, h2]]
          have hrem : remainingNames m (path ++ [u]) + 2 ≤ f := by
            have := remainingNames_drop m path u hu h1
            omega
          have hinit : t ∈ (st.1 ++ [u], st.2).1 →
              [t, t] ∈ (st.1 ++ [u], st.2).2 ∨ t ∈ path ++ [u] := by
            intro htv
            rcases List.mem_append.1 htv with h | h
            · rcases hDP h with hc | hp
              · exact Or.inl hc
              · exact Or.inr (List.mem_append.2 (Or.inl hp))
            · have : t = u := by simpa using h
              exact absurd this.symm hut
          have hfold := foldl_inv
            (fun s => t ∈ s.1 → [t, t] ∈ s.2 ∨ t ∈ path ++ [u])
            (fun s d => dfs m f d (path ++ [u]) s) (lookupDeps m u)
            (fun s d hd hs => ih d (path ++ [u]) s hrem (lookupDeps_sub_univ m u d hd) hs)
            (st.1 ++ [u], st.2) hinit
          intro htv
          rcases hfold htv with hc | hp
          · exact Or.inl hc
          · rcases List.mem_append.1 hp with hp | hpu
            · exact Or.inr hp
            · have : t = u := by simpa using hpu
              exact absurd this.symm hut

/-- A tag that stores itself as a dependency always contributes the cycle
`[t, t]` to the traversal's output. -/
theorem detect_records_self (m : DepMap) (t : String) (hself : t ∈ lookupDeps m t) :
    [t, t] ∈ detect_circular_dependencies m (detectBound m) := by
  have htk : t ∈ m.map Prod.fst := by
    unfold lookupDeps at hself
    cases hf : m.find? (fun p => p.1 == t) with
    | none => rw [hf] at hself; simp at hself
    | some p =>
      have hp : p ∈ m := List.mem_of_find?_eq_some hf
      have hpt : p.1 = t := by
        have := List.find?_some hf
        simpa [beq_iff_eq] using this
      exact List.mem_map.2 ⟨p, hp, hpt⟩
  have hb : remainingNames m [] + 2 ≤ detectBound m := by
    rw [remainingNames_nil]; unfold detectBound; omega
  unfold detect_circular_dependencies
  obtain ⟨K1, K2, hK⟩ := List.append_of_mem htk
  rw [hK, List.foldl_append, List.foldl_cons]
  have hK1sub : ∀ u ∈ K1, u ∈ m.map Prod.fst := by
    intro u hu
    rw [hK]
    exact List.mem_append.2 (Or.inl hu)
  have hDP1 := foldl_inv
    (fun st => t ∈ st.1 → [t, t] ∈ st.2 ∨ t ∈ ([] : List String))
    (fun st u => if u ∈ st.1 then st else dfs m (detectBound m) u [] st) K1
    (fun s u hu hs => by
      by_cases h : u ∈ s.1
      · simpa [h] using hs
      · simp only [h, if_false, Bool.false_eq_true]
        exact dfs_selfD m t hself (detectBound m) u [] s hb
          (keys_sub_univ m u (hK1sub u hu)) hs)
    ([], []) (by simp)
  set s1 := K1.foldl
    (fun st u => if u ∈ st.1 then st else dfs m (detectBound m) u [] st) ([], [])
    with hs1
  have hstep_t : [t, t] ∈
      ((fun st u => if u ∈ st.1 then st else dfs m (detectBound m) u [] st) s1 t).2 := by
    by_cases h : t ∈ s1.1
    · rcases hDP1 h with hc | hp
      · simpa [h] using hc
      · simp at hp
    · simp only [h, if_false, Bool.false_eq_true]
      exact dfs_self m t hself (detectBound m) [] s1 (by unfold detectBound; omega)
        (by simp) h
  have hmono2 : ∀ (ds : List String) (s : List String × List (List String)),
      [t, t] ∈ s.2 →
      [t, t] ∈ (ds.foldl
        (fun st u => if u ∈ st.1 then st else dfs m (detectBound m) u [] st) s).2 := by
    intro ds
    induction ds with
    | nil => intro s hs; exact hs
    | cons d ds ihd =>
      intro s hs
      rw [List.foldl_cons]
      apply ihd
      by_cases h : d ∈ s.1
      · simpa [h] using hs
      · simp only [h, if_false, Bool.false_eq_true]
        obtain ⟨v, c, _, hc⟩ := dfs_state_ext m (detectBound m) d [] s
        rw [hc]
        exact List.mem_append.2 (Or.inl hs)
  exact hmono2 K2 _ hstep_t

/-! ## Last helpers -/

theorem moveStep_nil (m : DepMap) : moveStep m [] = none := rfl

theorem get_ordered_tags_eq (m : DepMap) (fuel : Nat) (l : List String) :
    get_ordered_tags m fuel l = orderLoop m fuel l := by
  unfold get_ordered_tags
  by_cases h : l = []
  · subst h
    rw [if_pos rfl]
    exact (orderLoop_done m [] (moveStep_nil m) fuel).symm
  · rw [if_neg h]

theorem orderLoop_add (m : DepMap) (a b : Nat) :
    ∀ l : List String, orderLoop m (a + b) l = orderLoop m b (orderLoop m a l) := by
  induction a with
  | zero => intro l; rw [Nat.zero_add]; rfl
  | succ a ih =>
    intro l
    have hL : orderLoop m (a + 1 + b) l
        = (match moveStep m l with
           | none => orderLoop m (a + b) l
           | some l2 => orderLoop m (a + b) l2) := by
      rw [show a + 1 + b = (a + b) + 1 from by omega]
      cases hms : moveStep m l with
      | none =>
        simp only
        rw [orderLoop_done m l hms, orderLoop_done m l hms]
      | some l2 =>
        rw [show orderLoop m ((a + b) + 1) l
            = (match moveStep m l with
               | none => l
               | some l3 => orderLoop m (a + b) l3) from rfl, hms]
    rw [hL]
    cases hms : moveStep m l with
    | none =>
      simp only
      simp [orderLoop_done m l hms]
    | some l2 =>
      simp only
      rw [ih l2, show orderLoop m (a + 1) l
          = (match moveStep m l with
             | none => l
             | some l3 => orderLoop m a l3) from rfl, hms]

theorem noCycle_of_no_edges (r : String → String → Prop) (h : ∀ a b, ¬ r a b) :
    ∀ t, ¬ Relation.TransGen r t t := by
  intro t ht
  have hmain : ∀ a b : String, Relation.TransGen r a b → False := by
    intro a b hab
    induction hab with
    | single he => exact h _ _ he
    | tail _ he _ => exact h _ _ he
  exact hmain t t ht

theorem noCycle_of_single_pair (r : String → String → Prop) (x y : String)
    (hr : ∀ a b, r a b → a = x ∧ b = y) (hxy : x ≠ y) :
    ∀ t, ¬ Relation.TransGen r t t := by
  have hmain : ∀ a b, Relation.TransGen r a b → a = x ∧ b = y := by
    intro a b h
    induction h with
    | single hab => exact hr _ _ hab
    | tail _ hbc ih => exact ⟨ih.1, (hr _ _ hbc).2⟩
  intro t ht
  obtain ⟨h1, h2⟩ := hmain t t ht
  exact hxy (h1 ▸ h2)

/-! ## Claim theorems -/

/-- C3: for every condition string (or `None`), `_extract_variables_from_condition`
returns exactly the identifier-shaped tokens (a letter or underscore followed by
letters, digits, or underscores) remaining after deleting every double-quoted and
every single-quoted substring, excluding tokens that case-insensitively equal one
of and/or/not/true/false/null/undefined, de-duplicated preserving first-occurrence
order; a null or empty condition yields the empty sequence.  Stated as equality
with the specification-side pipeline `spec_extract`, whose tokenizer, stopword
filter and de-duplication are written independently of the scanner. -/
theorem C3_extract_equals_spec (condition : Option String) :
    _extract_variables_from_condition condition = spec_extract condition := by
  cases condition with
  | none => rfl
  | some s =>
    have hL : _extract_variables_from_condition (some s)
        = (if s.data = [] then []
           else keepVariables (findIdents (stripDelim singleQuote (stripDelim '"' s.data)))) :=
      rfl
    have hR : spec_extract (some s)
        = spec_dedup
            ((spec_identifier_tokens (stripDelim singleQuote (stripDelim '"' s.data))).filter
              (fun x => !(operatorWords.contains (strLower x)))) := rfl
    rw [hL, hR]
    by_cases hs : s.data = []
    · rw [if_pos hs, hs]
      simp [stripDelim, stripDelimGo, spec_identifier_tokens, spec_word_runs, specRunsAux, spec_dedup]
    · rw [if_neg hs, keepVariables_eq_spec, findIdents_eq_spec]

/-- C2 (code evaluation at the failing input): the deterministic part of
`analyze_dependencies` — everything up to the final `list(set(...))`
materialization — produces, for the test schema, exactly the first-appearance
dependency lists the method's own comment promises (`guys` reads
`participants` then `girls`), each condition-free tag still present with `[]`.
The Python method then loses that order by storing `set(dependencies)` and
returning `list(...)` of it, which is CPython hash-iteration order. -/
theorem C2_analyze_dependencies_eval :
    analyze_dependencies c2Config
      = [("participants", []), ("girls", ["participants"]),
         ("guys", ["participants", "girls"])] := by
  decide

/-- C4: with the dependency map where `dance_style` depends on
`{action, girls, guys, scene}`, `girls` on `{participants}` and `guys` on
`{participants, girls}`, the repair loop on
`[dance_style, participants, girls, guys, action, scene]` stabilizes (for every
sufficient fuel) at exactly
`[participants, girls, guys, action, scene, dance_style]`. -/
theorem C4_multi_step_reorder :
    moveStep c4DepMap
        ["participants", "girls", "guys", "action", "scene", "dance_style"] = none ∧
    ∀ fuel : Nat, get_ordered_tags c4DepMap (2 + fuel) c4Input
      = ["participants", "girls", "guys", "action", "scene", "dance_style"] := by
  have hfix : moveStep c4DepMap
      ["participants", "girls", "guys", "action", "scene", "dance_style"] = none := by
    decide
  refine ⟨hfix, fun fuel => ?_⟩
  rw [get_ordered_tags_eq, orderLoop_add]
  rw [show orderLoop c4DepMap 2 c4Input
      = ["participants", "girls", "guys", "action", "scene", "dance_style"] from by decide]
  exact orderLoop_done c4DepMap _ hfix fuel

/-- C7: analyzing the schema `{tag1: req "tag2", tag2: req "tag3",
tag3: req "tag1"}` and detecting cycles returns exactly one cycle; it contains
all three names, and it is the sub-path from the first occurrence of the
re-encountered tag (`tag1`) back to itself, with the repeated name as both
first and last element. -/
theorem C7_three_cycle :
    detect_circular_dependencies (analyze_dependencies c7Config)
        (detectBound (analyze_dependencies c7Config))
      = [["tag1", "tag2", "tag3", "tag1"]] ∧
    ∃ c ∈ detect_circular_dependencies (analyze_dependencies c7Config)
        (detectBound (analyze_dependencies c7Config)),
      "tag1" ∈ c ∧ "tag2" ∈ c ∧ "tag3" ∈ c ∧
      c.head? = some "tag1" ∧ c.getLast? = some "tag1" := by
  constructor
  · decide
  · refine ⟨["tag1", "tag2", "tag3", "tag1"], by decide, by decide, by decide, by decide,
      by decide, by decide⟩

/-- C10: in the state-passing rendering of the manager, `get_ordered_tags` and
`detect_circular_dependencies` return the stored state untouched (their bodies
read `self.tag_dependencies` and assign no field, and the former works on
`tag_order.copy()`, which the value semantics of the embedding renders as the
argument list being left to the caller unchanged); only `analyze_dependencies`
replaces the stored fields. -/
theorem C10_frame (mgr : Manager) (fuel : Nat) (tag_order : List String)
    (cfg : TagConfig) :
    (mgr.getOrderedTags fuel tag_order).1 = mgr ∧
    (mgr.detectCircular fuel).1 = mgr ∧
    (Manager.analyze mgr cfg).1 = ⟨analyze_dependencies cfg, cfg⟩ := by
  exact ⟨rfl, rfl, rfl⟩

/-- C1: for every `tag_order` whose induced dependency relation — restricted to
names appearing in `tag_order`, via the stored dependency map — is acyclic, the
repair loop of `get_ordered_tags` reaches a pass with no move and returns a
permutation of `tag_order` in which, for every tag `T` in the list and every
name `d` in `T`'s dependency set that also appears in the list, `d`'s final
index is at most `T`'s final index; dependency names absent from the list
impose no constraint (`DepsSatisfied` only constrains indices witnessed by
`findIdx?`). -/
theorem C1_ordering_correct (m : DepMap) (tag_order : List String)
    (hacy : AcyclicRel (DepEdge m tag_order)) :
    ∃ n, moveStep m (get_ordered_tags m n tag_order) = none ∧
      (get_ordered_tags m n tag_order).Perm tag_order ∧
      DepsSatisfied m (get_ordered_tags m n tag_order) := by
  have hNS : ∀ t, ¬ Relation.TransGen (DepEdgeNS m tag_order) t t := fun t ht =>
    hacy t (ht.mono (fun a b hab => hab.1))
  obtain ⟨n, hn⟩ := orderLoop_reaches_fixpoint m tag_order hNS
  refine ⟨n, ?_, ?_, ?_⟩
  · rw [get_ordered_tags_eq]; exact hn
  · rw [get_ordered_tags_eq]; exact orderLoop_perm m n tag_order
  · rw [get_ordered_tags_eq]; exact (moveStep_none_iff_satisfied m _).1 hn

theorem C1_witness :
    AcyclicRel (DepEdge [("b", ["a"])] ["b", "a"]) ∧
    (∃ n, moveStep [("b", ["a"])] (get_ordered_tags [("b", ["a"])] n ["b", "a"]) = none ∧
      (get_ordered_tags [("b", ["a"])] n ["b", "a"]).Perm ["b", "a"] ∧
      DepsSatisfied [("b", ["a"])] (get_ordered_tags [("b", ["a"])] n ["b", "a"])) := by
  have hacy : AcyclicRel (DepEdge [("b", ["a"])] ["b", "a"]) := by
    refine noCycle_of_single_pair _ "a" "b" ?_ (by decide)
    intro a b hab
    obtain ⟨ha, hb, hdep⟩ := hab
    rcases (by simpa using hb : b = "b" ∨ b = "a") with rfl | rfl
    · have he : lookupDeps [("b", ["a"])] "b" = ["a"] := rfl
      rw [he] at hdep
      exact ⟨by simpa using hdep, rfl⟩
    · have he : lookupDeps [("b", ["a"])] "a" = [] := rfl
      rw [he] at hdep
      simp at hdep
  exact ⟨hacy, C1_ordering_correct _ _ hacy⟩

/-- C5: for every `tag_order` whose induced dependency relation among the
listed tags is acyclic, the fixed-point repair loop of `get_ordered_tags`
terminates — after finitely many moves there is a pass with no change
(`moveStep` returns `none` on the loop's state). -/
theorem C5_loop_terminates (m : DepMap) (tag_order : List String)
    (hacy : AcyclicRel (DepEdge m tag_order)) :
    ∃ n, moveStep m (orderLoop m n tag_order) = none := by
  have hNS : ∀ t, ¬ Relation.TransGen (DepEdgeNS m tag_order) t t := fun t ht =>
    hacy t (ht.mono (fun a b hab => hab.1))
  exact orderLoop_reaches_fixpoint m tag_order hNS

theorem C5_witness :
    AcyclicRel (DepEdge [("c", ["a"])] ["c", "b", "a"]) ∧
    ∃ n, moveStep [("c", ["a"])] (orderLoop [("c", ["a"])] n ["c", "b", "a"]) = none := by
  have hacy : AcyclicRel (DepEdge [("c", ["a"])] ["c", "b", "a"]) := by
    refine noCycle_of_single_pair _ "a" "c" ?_ (by decide)
    intro a b hab
    obtain ⟨ha, hb, hdep⟩ := hab
    rcases (by simpa using hb : b = "c" ∨ b = "b" ∨ b = "a") with rfl | rfl | rfl
    · have he : lookupDeps [("c", ["a"])] "c" = ["a"] := rfl
      rw [he] at hdep
      exact ⟨by simpa using hdep, rfl⟩
    · have he : lookupDeps [("c", ["a"])] "b" = [] := rfl
      rw [he] at hdep
      simp at hdep
    · have he : lookupDeps [("c", ["a"])] "a" = [] := rfl
      rw [he] at hdep
      simp at hdep
  exact ⟨hacy, C5_loop_terminates _ _ hacy⟩

/-- C6: a `tag_order` that already satisfies all dependencies (every
dependency of each listed tag that appears in the list sits at an index at
most the tag's index) is returned unchanged, for any fuel: the first pass
makes no move. -/
theorem C6_satisfied_unchanged (m : DepMap) (tag_order : List String) (fuel : Nat)
    (hsat : DepsSatisfied m tag_order) :
    get_ordered_tags m fuel tag_order = tag_order := by
  rw [get_ordered_tags_eq]
  exact orderLoop_done m tag_order ((moveStep_none_iff_satisfied m tag_order).2 hsat) fuel

theorem C6_witness :
    DepsSatisfied [("girls", ["participants"])] ["participants", "girls"] ∧
    get_ordered_tags [("girls", ["participants"])] 3 ["participants", "girls"]
      = ["participants", "girls"] := by
  have hsat : DepsSatisfied [("girls", ["participants"])] ["participants", "girls"] := by
    intro i hi d hd j hj
    have h2 : i < 2 := by simpa using hi
    interval_cases i
    · have hget : (["participants", "girls"] : List String).get ⟨0, hi⟩ = "participants" :=
        rfl
      rw [hget] at hd
      have hlk : lookupDeps [("girls", ["participants"])] "participants" = [] := rfl
      rw [hlk] at hd
      simp at hd
    · have hget : (["participants", "girls"] : List String).get ⟨1, hi⟩ = "girls" := rfl
      rw [hget] at hd
      have hlk : lookupDeps [("girls", ["participants"])] "girls" = ["participants"] := rfl
      rw [hlk] at hd
      have hdp : d = "participants" := by simpa using hd
      subst hdp
      have hfi : (["participants", "girls"] : List String).findIdx?
          (fun c => c == "participants") = some 0 := rfl
      rw [hfi] at hj
      have := Option.some.inj hj
      omega
  exact ⟨hsat, C6_satisfied_unchanged _ _ 3 hsat⟩

/-- C8: for every finite dependency map, including cyclic ones, the traversal
of `detect_circular_dependencies` terminates: in the fuel-passing embedding,
every fuel at least `detectBound m` (the number of distinct reachable names
plus two, the bound the visited/recursion-path bookkeeping guarantees) yields
the same result, so the recursion depth is bounded and the Python function —
which is this computation without the fuel argument — returns; being a total
function of its inputs, it raises nothing. -/
theorem C8_detect_terminates (m : DepMap) (fuel : Nat) (hf : detectBound m ≤ fuel) :
    detect_circular_dependencies m fuel = detect_circular_dependencies m (detectBound m) :=
  detect_fuel_stable m fuel hf

theorem C8_witness :
    detectBound (analyze_dependencies c7Config) ≤ 9 ∧
    detect_circular_dependencies (analyze_dependencies c7Config) 9
      = detect_circular_dependencies (analyze_dependencies c7Config)
          (detectBound (analyze_dependencies c7Config)) :=
  ⟨by decide, C8_detect_terminates (analyze_dependencies c7Config) 9 (by decide)⟩

/-- C9: when some tag's stored dependency set contains its own name and the
dependency relation is otherwise acyclic among the listed tags (self-edges
excluded), `get_ordered_tags` still terminates and returns a permutation of
its input (a self-dependency never forces a move, since a tag's own first
index is never strictly greater than its position), and the cycle traversal
still terminates — it is fuel-stable by C8 — reporting the self-loop as the
two-element cycle `[t, t]`; neither operation crashes on self-referential
data (both are total functions in the embedding). -/
theorem C9_self_reference_safe (m : DepMap) (tag_order : List String) (t : String)
    (hself : t ∈ lookupDeps m t)
    (hacy : AcyclicRel (DepEdgeNS m tag_order)) :
    (∃ n, moveStep m (get_ordered_tags m n tag_order) = none ∧
      (get_ordered_tags m n tag_order).Perm tag_order) ∧
    [t, t] ∈ detect_circular_dependencies m (detectBound m) := by
  constructor
  · obtain ⟨n, hn⟩ := orderLoop_reaches_fixpoint m tag_order hacy
    refine ⟨n, ?_, ?_⟩
    · rw [get_ordered_tags_eq]; exact hn
    · rw [get_ordered_tags_eq]; exact orderLoop_perm m n tag_order
  · exact detect_records_self m t hself

theorem C9_witness :
    "t" ∈ lookupDeps [("t", ["t"])] "t" ∧
    AcyclicRel (DepEdgeNS [("t", ["t"])] ["t"]) ∧
    ((∃ n, moveStep [("t", ["t"])] (get_ordered_tags [("t", ["t"])] n ["t"]) = none ∧
      (get_ordered_tags [("t", ["t"])] n ["t"]).Perm ["t"]) ∧
    ["t", "t"] ∈ detect_circular_dependencies [("t", ["t"])] (detectBound [("t", ["t"])])) := by
  have hself : "t" ∈ lookupDeps [("t", ["t"])] "t" := by decide
  have hacy : AcyclicRel (DepEdgeNS [("t", ["t"])] ["t"]) := by
    apply noCycle_of_no_edges
    rintro a b ⟨⟨ha, hb, hdep⟩, hne⟩
    have hb' : b = "t" := by simpa using hb
    subst hb'
    have he : lookupDeps [("t", ["t"])] "t" = ["t"] := rfl
    rw [he] at hdep
    have ha' : a = "t" := by simpa using hdep
    exact hne ha'
  exact ⟨hself, hacy, C9_self_reference_safe _ _ "t" hself hacy⟩
